import Mathlib

/-!
Verification of the ASReview → Zotero reconciliation engine
(`src/espace/zotsync/from_asreview.py`, a.k.a. `zot_import`).

The Python module is shallowly embedded: every helper (`_norm`,
`_normalize_doi`, `_guess_year`, `_search_by_doi`, `_search_by_title_year`,
`_search_fuzzy`, `_format_review_time`, `_find_items_by_title_year_sqlite`)
and the per-row body of `apply_asreview_decisions` become executable Lean
functions over explicit data (lists of records, an explicit relational
state for the SQLite store, a `commitOk` oracle for the remote PUT
outcome).  External library calls are modelled: `difflib.SequenceMatcher
.ratio` as a longest-common-subsequence ratio in ℚ (the library's
documented contract: a symmetric score in [0,1] with 1 for identical
strings), and `pandas.to_datetime` as an ISO-8601 parser that fails on
non-date text.  Machine floats of the source are modelled as exact
rationals; SQLite's `LIKE`, which is ASCII case-insensitive by default,
is modelled as a case-insensitive prefix test.
-/

namespace ZotSync

/-! ### Python string primitives, on explicit character lists -/

/-- Characters matched by Python's `\s` (ASCII part) and by `str.strip()`. -/
def pySpace (c : Char) : Bool :=
  c = ' ' || c = '\t' || c = '\n' || c = '\r' || c = '\x0b' || c = '\x0c'

/-- One pass of `re.sub(r"\s+", " ", s)`: every maximal run of whitespace
becomes a single space.  `prev` records whether the previous character was
part of a whitespace run. -/
def collapseWsAux : Bool → List Char → List Char
  | _, [] => []
  | prev, c :: cs =>
    if pySpace c then
      if prev then collapseWsAux true cs else ' ' :: collapseWsAux true cs
    else c :: collapseWsAux false cs

/-- Python `str.strip()` on a character list. -/
def pyStripChars (l : List Char) : List Char :=
  ((l.dropWhile pySpace).reverse.dropWhile pySpace).reverse

/-- Embeds `_norm`: collapse whitespace runs to one space, then strip. -/
def norm (s : String) : String :=
  ⟨pyStripChars (collapseWsAux false s.data)⟩

/-- ASCII lower-casing of one character, as Python `str.lower` does for
ASCII input (`Char.toLower` is exactly the ASCII case fold). -/
def lowChar (c : Char) : Char := c.toLower

/-- ASCII lower-casing of a string (Python `str.lower` on ASCII text). -/
def asciiLower (s : String) : String := ⟨s.data.map lowChar⟩

/-- Boolean prefix test on character lists (Python `str.startswith`). -/
def pfxOf : List Char → List Char → Bool
  | [], _ => true
  | _ :: _, [] => false
  | a :: as, b :: bs => a = b && pfxOf as bs

/-- Python `raw[len(p):] if raw.startswith(p) else raw`. -/
def dropPfxIf (p : String) (s : String) : String :=
  if pfxOf p.data s.data then ⟨s.data.drop p.data.length⟩ else s

/-- Embeds `_normalize_doi`: lower-case the normalized text, strip each of
the known URL/scheme prefixes in order (the Python loop has no `break`),
then strip whitespace again. -/
def normalizeDoi (s : String) : String :=
  let raw := asciiLower (norm s)
  if raw = "" then ""
  else ⟨pyStripChars (List.foldl (fun acc p => dropPfxIf p acc) raw
    ["https://doi.org/", "http://doi.org/", "doi:", "doi.org/"]).data⟩

/-- Leftmost match of the regex `(19|20)\d{2}`, scanning position by
position as `re.search` does. -/
def yearScan : List Char → Option (List Char)
  | a :: b :: c :: d :: rest =>
    if ((a = '1' ∧ b = '9') ∨ (a = '2' ∧ b = '0')) ∧ c.isDigit ∧ d.isDigit then
      some [a, b, c, d]
    else yearScan (b :: c :: d :: rest)
  | _ => none

/-- Embeds `_guess_year`: normalize, then return the leftmost
`(19|20)\d{2}` match, or the empty string. -/
def guessYear (s : String) : String :=
  let s' := norm s
  if s' = "" then ""
  else match yearScan s'.data with
    | some l => ⟨l⟩
    | none => ""

/-! ### Similarity scoring (model of `difflib.SequenceMatcher.ratio`) -/

/-- Fuel-indexed longest-common-subsequence length; the fuel only
truncates the recursion and is always supplied large enough. -/
def lcsLenF : Nat → List Char → List Char → Nat
  | 0, _, _ => 0
  | _ + 1, [], _ => 0
  | _ + 1, _ :: _, [] => 0
  | f + 1, a :: as, b :: bs =>
    if a = b then lcsLenF f as bs + 1
    else max (lcsLenF f as (b :: bs)) (lcsLenF f (a :: as) bs)

/-- Longest-common-subsequence length of two character lists. -/
def lcsLen (l₁ l₂ : List Char) : Nat := lcsLenF (l₁.length + l₂.length) l₁ l₂

/-- Model of `difflib.SequenceMatcher(None, a, b).ratio()`: `2*M/T` with
`M` the number of matched characters (longest-common-subsequence model)
and `T` the total length; two empty strings give `1.0`, exactly as the
library does.  Scores are exact rationals. -/
def charSim (a b : String) : ℚ :=
  if a.data.length + b.data.length = 0 then 1
  else (2 * (lcsLen a.data b.data) : ℚ) / ((a.data.length + b.data.length : Nat) : ℚ)

/-! ### Records and the remote search strategies -/

/-- One Zotero item as the remote API returns it: `key`, `version` and the
`data` fields the module reads (`title`, `date`, `publicationYear`, `DOI`,
`tags`); absent fields default to `""` / `[]` as `data.get(...)` does.
Tags are the tag strings of the `data.tags` array. -/
structure ZItem where
  key : String
  version : Nat
  title : String
  date : String
  publicationYear : String
  doi : String
  tags : List String
deriving DecidableEq, Repr

/-- Resolved year of an item: `_guess_year(_norm(date) or _norm(publicationYear))`
(Python `or` takes the first non-empty string). -/
def resolvedYear (it : ZItem) : String :=
  guessYear (if norm it.date = "" then norm it.publicationYear else norm it.date)

/-- Year acceptance test of `_search_by_title_year`:
`not year or not zyear or year.lower() == zyear.lower()`. -/
def yearOk (year zyear : String) : Bool :=
  year = "" || zyear = "" || asciiLower year = asciiLower zyear

/-- Embeds `_search_by_doi`.  The `pool` is the item list the HTTP search
returned (`r.json()` on a 200 response); the function keeps the items
whose normalized DOI equals the normalized target DOI. -/
def searchByDoi (pool : List ZItem) (doi : String) : List ZItem :=
  let d := normalizeDoi doi
  if d = "" then []
  else pool.filter (fun it => normalizeDoi it.doi = d)

/-- Embeds `_search_by_title_year`: keep pool items whose lower-cased
normalized title equals the lower-cased normalized target title and whose
resolved year is compatible (either side absent acts as a wildcard). -/
def searchByTitleYear (pool : List ZItem) (title year : String) : List ZItem :=
  let t := norm title
  if t = "" then []
  else
    let tl := asciiLower t
    pool.filter (fun it =>
      asciiLower (norm it.title) = tl && yearOk year (resolvedYear it))

/-- Score of one fuzzy candidate, bonus included: the character-similarity
ratio of the lower-cased normalized titles, plus `0.02` when a year was
given and the candidate's resolved year equals it exactly. -/
def fuzzyScore (tl year : String) (it : ZItem) : ℚ :=
  let base := charSim tl (asciiLower (norm it.title))
  if year ≠ "" ∧ resolvedYear it = year then base + 1/50 else base

/-- Stable descending insertion by key `f` (ties: the inserted element
goes after the equal-keyed elements already placed). -/
def insDescBy (f : α → ℚ) (x : α) : List α → List α
  | [] => [x]
  | y :: ys => if f y ≤ f x then x :: y :: ys else y :: insDescBy f x ys

/-- Stable descending sort by key `f`, the behavior of Python's stable
`list.sort(key=..., reverse=True)` / `sorted(..., reverse=True)`. -/
def sortDescBy (f : α → ℚ) : List α → List α
  | [] => []
  | x :: xs => insDescBy f x (sortDescBy f xs)

/-- Embeds `_search_fuzzy` up to (and including) the sort, keeping the
scores: candidates with an empty normalized title are skipped, each
remaining candidate is scored by `fuzzyScore`, candidates at or above the
threshold are kept, and the list is sorted by score descending. -/
def searchFuzzyScored (pool : List ZItem) (title year : String) (thr : ℚ) :
    List (ℚ × ZItem) :=
  let t := norm title
  if t = "" then []
  else
    let tl := asciiLower t
    sortDescBy Prod.fst (pool.filterMap (fun it =>
      if asciiLower (norm it.title) = "" then none
      else
        let score := fuzzyScore tl year it
        if thr ≤ score then some (score, it) else none))

/-- Embeds `_search_fuzzy`: the scored search with the scores dropped
(`return [it for _, it in scored]`). -/
def searchFuzzy (pool : List ZItem) (title year : String) (thr : ℚ) : List ZItem :=
  (searchFuzzyScored pool title year thr).map Prod.snd

/-! ### Decision mapping and timestamp formatting -/

/-- A raw cell value as pandas hands it to the module: `None`, a float
`NaN` (the value of an empty CSV cell), or a string. -/
inductive PyVal where
  | pynone
  | nan
  | pystr (s : String)
deriving DecidableEq, Repr

/-- Accepted tail of an ISO time: nothing, a `Z` suffix, or `:SS` seconds
optionally followed by `Z`.  Part of the `pandas.to_datetime` model. -/
def secsOk : List Char → Bool
  | [] => true
  | ['Z'] => true
  | ':' :: s₁ :: s₂ :: rest =>
    s₁.isDigit && s₂.isDigit && (rest = [] || rest = ['Z'])
  | _ => false

/-- Model of `pd.to_datetime(val, utc=True).tz_convert(None).strftime("%Y-%m-%d %H:%M")`,
restricted to ISO-8601 inputs `YYYY-MM-DD`, optionally followed by
`[T ]HH:MM`, optional `:SS`, optional `Z`: on success it yields the
characters of the rendered `YYYY-MM-DD HH:MM` form; any other text fails
to parse, as the library raises there. -/
def parseIso (s : String) : Option (List Char) :=
  match s.data with
  | y₁ :: y₂ :: y₃ :: y₄ :: '-' :: m₁ :: m₂ :: '-' :: d₁ :: d₂ :: rest =>
    if [y₁, y₂, y₃, y₄, m₁, m₂, d₁, d₂].all (·.isDigit) then
      match rest with
      | [] => some [y₁, y₂, y₃, y₄, '-', m₁, m₂, '-', d₁, d₂, ' ', '0', '0', ':', '0', '0']
      | sep :: h₁ :: h₂ :: ':' :: n₁ :: n₂ :: rest₂ =>
        if (sep = 'T' || sep = ' ') && h₁.isDigit && h₂.isDigit && n₁.isDigit
            && n₂.isDigit && secsOk rest₂ then
          some [y₁, y₂, y₃, y₄, '-', m₁, m₂, '-', d₁, d₂, ' ', h₁, h₂, ':', n₁, n₂]
        else none
      | _ => none
    else none
  | _ => none

/-- Embeds `_format_review_time`: `NaN`/`None` give the empty string, a
blank string gives the empty string, a parseable timestamp is rendered as
`YYYY-MM-DD HH:MM`, and on a parse failure the raw value is returned via
`str(val)`. -/
def formatReviewTime (v : PyVal) : String :=
  match v with
  | .pynone => ""
  | .nan => ""
  | .pystr s =>
    if (⟨pyStripChars s.data⟩ : String) = "" then ""
    else match parseIso s with
      | some cs => ⟨cs⟩
      | none => s

/-- Embeds the reason computation: `"" if pd.isna(raw) else _norm(raw)`. -/
def formatReason (v : PyVal) : String :=
  match v with
  | .pynone => ""
  | .nan => ""
  | .pystr s => norm s

/-- Embeds `label_to_decision`: trimmed, lower-cased membership test
against the two fixed label sets; anything else maps to no decision. -/
def labelToDecision (v : String) : Option String :=
  let s := asciiLower (norm v)
  if s = "" then none
  else if s ∈ ["1", "included", "relevant", "yes", "true", "y"] then some "included"
  else if s ∈ ["0", "-1", "excluded", "irrelevant", "no", "false", "n"] then some "excluded"
  else none

/-- Embeds the `tags_to_set` construction: nothing without a decision;
otherwise the Decision tag, then the Time tag when the formatted time is
non-empty, then the Reason tag when the reason is non-empty. -/
def mkTagsToSet (decision : Option String) (timeValue reasonValue : String) :
    List String :=
  match decision with
  | none => []
  | some d =>
    ["review:Decision=" ++ d]
      ++ (if timeValue ≠ "" then ["review:Time=" ++ timeValue] else [])
      ++ (if reasonValue ≠ "" then ["review:Reason=" ++ reasonValue] else [])

/-! ### The per-row orchestrator, remote path -/

/-- One input row, with the decision fields as raw pandas values. -/
structure Row where
  title : String
  year : String
  doi : String
  label : String
  time : PyVal
  note : PyVal
deriving DecidableEq, Repr

/-- The `tags_to_set` list computed by the row loop for one row. -/
def rowTags (row : Row) : List String :=
  mkTagsToSet (labelToDecision row.label) (formatReviewTime row.time)
    (formatReason row.note)

/-- The outcome report: `{updated, not_found, errors}`. -/
structure Report where
  updated : Nat
  notFound : Nat
  errors : Nat
deriving DecidableEq, Repr

/-- Pointwise sum of two reports. -/
def Report.add (a b : Report) : Report :=
  ⟨a.updated + b.updated, a.notFound + b.notFound, a.errors + b.errors⟩

/-- Embeds the `ensure_tag` loop of the remote commit: each target tag is
appended to the item's current tag list only when no equal tag is already
present; nothing is ever removed. -/
def ensureTags (cur ts : List String) : List String :=
  ts.foldl (fun acc t => if t ∈ acc then acc else acc ++ [t]) cur

/-- Matching as the remote row loop performs it: exact title+year first,
fuzzy only when that is empty.  `poolTY` and `poolFZ` are the item lists
the two HTTP searches return. -/
def remoteMatch (poolTY poolFZ : List ZItem) (title year : String) (thr : ℚ) :
    List ZItem :=
  let ty := searchByTitleYear poolTY title year
  if ty.isEmpty then searchFuzzy poolFZ title year thr else ty

/-- Outcome of one remote row: the report delta and the PUT requests
issued, each as `(key, tag list sent)`. -/
structure RemoteOutcome where
  report : Report
  puts : List (String × List String)
deriving DecidableEq, Repr

/-- The remote commit loop over the matched items: one PUT per item with
the `ensure_tag`-extended tag list; a succeeding PUT counts `updated`, a
failing one counts `errors`.  `commitOk` tells, per item key, whether the
server accepts the PUT. -/
def commitFold (commitOk : String → Bool) (ts : List String)
    (items : List ZItem) : RemoteOutcome :=
  items.foldl (fun acc it =>
    let newTags := ensureTags it.tags ts
    { report :=
        if commitOk it.key then
          { acc.report with updated := acc.report.updated + 1 }
        else
          { acc.report with errors := acc.report.errors + 1 },
      puts := acc.puts ++ [(it.key, newTags)] })
    ⟨⟨0, 0, 0⟩, []⟩

/-- One iteration of the row loop on the remote path (`db_path is None`):
match, then in order — unmatched rows count `not_found`; matched rows
with no tags to set and no dry run are skipped; a dry run counts every
match as updated without issuing a PUT; otherwise the commit loop runs. -/
def processRowRemote (poolTY poolFZ : List ZItem) (row : Row) (thr : ℚ)
    (dryRun : Bool) (commitOk : String → Bool) : RemoteOutcome :=
  let title := norm row.title
  let year := norm row.year
  let ts := rowTags row
  let items := remoteMatch poolTY poolFZ title year thr
  if items.isEmpty then ⟨⟨0, 1, 0⟩, []⟩
  else if ts.isEmpty && !dryRun then ⟨⟨0, 0, 0⟩, []⟩
  else if dryRun then ⟨⟨items.length, 0, 0⟩, []⟩
  else commitFold commitOk ts items

/-- The whole remote batch: the row loop folded over the input rows,
accumulating the report and the PUTs issued. -/
def runRemote (poolTY poolFZ : List ZItem) (rows : List Row) (thr : ℚ)
    (dryRun : Bool) (commitOk : String → Bool) : RemoteOutcome :=
  rows.foldl (fun acc row =>
    let o := processRowRemote poolTY poolFZ row thr dryRun commitOk
    ⟨acc.report.add o.report, acc.puts ++ o.puts⟩) ⟨⟨0, 0, 0⟩, []⟩

/-! ### The SQLite store and the SQLite path -/

/-- The slice of the Zotero SQLite schema the module touches.  `groups`
holds `(groupID, libraryID)` rows, `items` holds `(itemID, key, libraryID)`
rows, `itemTitles` is the value of the `itemData`/`itemDataValues`/`fields`
join for the field named `title` (at most the first row per item is read,
per the `LIMIT 1`), `tags` holds `(tagID, name)` rows and `itemTags` the
`(itemID, tagID)` join rows. -/
structure SqlDB where
  groups : List (Nat × Nat)
  items : List (Nat × String × Nat)
  itemTitles : List (Nat × String)
  tags : List (Nat × String)
  itemTags : List (Nat × Nat)
deriving DecidableEq, Repr

/-- Model of SQLite's `name LIKE 'review:%'`: `LIKE` is case-insensitive
for ASCII by default, so this is a case-insensitive prefix test. -/
def likeReview (name : String) : Bool :=
  pfxOf "review:".data (asciiLower name).data

/-- Embeds `_find_items_by_title_year_sqlite`: resolve the group to its
`libraryID`, take the items of that library, score each item's (first)
title against the target with the character-similarity ratio, keep the
scores at or above the threshold, and sort by score descending.  The
`year` argument is part of the signature but, as in the source, unused. -/
def findItemsSqlite (db : SqlDB) (title year : String) (libraryId : Nat)
    (thr : ℚ) : List (String × ℚ) :=
  let t := asciiLower (norm title)
  if t = "" then []
  else match db.groups.find? (fun g => g.1 = libraryId) with
    | none => []
    | some g =>
      sortDescBy Prod.snd
        ((db.items.filter (fun i => i.2.2 = g.2)).filterMap (fun i =>
          match db.itemTitles.find? (fun p => p.1 = i.1) with
          | none => none
          | some p =>
            let s := charSim t (asciiLower (norm p.2))
            if thr ≤ s then some (i.2.1, s) else none))

/-- Largest `tagID` in the `tags` table (`SELECT MAX(tagID) FROM tags`,
with `NULL` read as `0` by the `(max_id or 0)` idiom). -/
def maxTagId (db : SqlDB) : Nat := db.tags.foldl (fun m p => max m p.1) 0

/-- Embeds one iteration of the tag-insert loop: look the tag name up in
`tags` (first row, as `fetchone` does), otherwise insert it under the
fresh id `MAX(tagID)+1`; then `INSERT OR IGNORE` the `(itemID, tagID)`
join row. -/
def insertTagLink (db : SqlDB) (itemId : Nat) (tag : String) : SqlDB :=
  match db.tags.find? (fun p => p.2 = tag) with
  | some p =>
    { db with itemTags :=
        if (itemId, p.1) ∈ db.itemTags then db.itemTags
        else db.itemTags ++ [(itemId, p.1)] }
  | none =>
    let tid := maxTagId db + 1
    { db with
        tags := db.tags ++ [(tid, tag)],
        itemTags :=
          if (itemId, tid) ∈ db.itemTags then db.itemTags
          else db.itemTags ++ [(itemId, tid)] }

/-- The subquery of the `review:*` removal: ids of tags whose name
matches `LIKE 'review:%'` and that are joined to the item. -/
def reviewTagIds (db : SqlDB) (itemId : Nat) : List Nat :=
  (db.tags.filter (fun p =>
    likeReview p.2 && (itemId, p.1) ∈ db.itemTags)).map Prod.fst

/-- Embeds the `review:*` removal: delete the join rows of the item that
point at one of the collected tag ids. -/
def removeReviewLinks (db : SqlDB) (itemId : Nat) : SqlDB :=
  { db with itemTags :=
      db.itemTags.filter (fun l => ¬(l.1 = itemId ∧ l.2 ∈ reviewTagIds db itemId)) }

/-- The whole SQLite commit for one matched item: remove the `review:*`
join rows, then insert each target tag in order. -/
def commitItemSql (db : SqlDB) (itemId : Nat) (ts : List String) : SqlDB :=
  ts.foldl (fun d t => insertTagLink d itemId t) (removeReviewLinks db itemId)

/-- The SQLite commit loop over the matched keys: each key is resolved to
its `itemID` over the whole `items` table (first row); a missing key
counts an error, otherwise the item is committed and counted updated. -/
def sqlApplyMatches (db : SqlDB) (keys : List String) (ts : List String) :
    SqlDB × Nat × Nat :=
  keys.foldl (fun st key =>
    match st.1.items.find? (fun i => i.2.1 = key) with
    | none => (st.1, st.2.1, st.2.2 + 1)
    | some i => (commitItemSql st.1 i.1 ts, st.2.1 + 1, st.2.2))
    (db, 0, 0)

/-- One iteration of the row loop on the SQLite path (`db_path` given):
match by fuzzy title, skip the row entirely when there are no tags to
set, otherwise run the commit loop; the result is the new database state
and this row's report delta.  The path consults neither `dry_run` nor
`not_found`. -/
def processRowSqlite (db : SqlDB) (row : Row) (libraryId : Nat) (thr : ℚ) :
    SqlDB × Report :=
  let title := norm row.title
  let year := norm row.year
  let ts := rowTags row
  let found := findItemsSqlite db title year libraryId thr
  if ts.isEmpty then (db, ⟨0, 0, 0⟩)
  else
    let r := sqlApplyMatches db (found.map Prod.fst) ts
    (r.1, ⟨r.2.1, 0, r.2.2⟩)

/-- The tag names joined to one item, in join-row order, resolving each
`tagID` through the `tags` table. -/
def itemTagNames (db : SqlDB) (itemId : Nat) : List String :=
  db.itemTags.filterMap (fun l =>
    if l.1 = itemId then (db.tags.find? (fun p => p.1 = l.2)).map Prod.snd
    else none)

/-- Well-formedness of the store, as the real schema guarantees it:
`tagID` is a primary key, tag names are unique, and every join row
references an existing tag. -/
def WFdb (db : SqlDB) : Prop :=
  (db.tags.map Prod.fst).Nodup ∧ (db.tags.map Prod.snd).Nodup ∧
    ∀ l ∈ db.itemTags, l.2 ∈ db.tags.map Prod.fst

/-! ### Lemmas about the similarity score -/

theorem lcsLenF_le_left : ∀ (f : Nat) (l₁ l₂ : List Char),
    lcsLenF f l₁ l₂ ≤ l₁.length := by
  intro f
  induction f with
  | zero => intro l₁ l₂; simp [lcsLenF]
  | succ f ih =>
    intro l₁ l₂
    match l₁, l₂ with
    | [], _ => simp [lcsLenF]
    | _ :: _, [] => simp [lcsLenF]
    | a :: as, b :: bs =>
      simp only [lcsLenF, List.length_cons]
      split
      · exact Nat.succ_le_succ (ih as bs)
      · exact max_le ((ih as (b :: bs)).trans (Nat.le_succ _)) (ih (a :: as) bs)

theorem lcsLenF_le_right : ∀ (f : Nat) (l₁ l₂ : List Char),
    lcsLenF f l₁ l₂ ≤ l₂.length := by
  intro f
  induction f with
  | zero => intro l₁ l₂; simp [lcsLenF]
  | succ f ih =>
    intro l₁ l₂
    match l₁, l₂ with
    | [], _ => simp [lcsLenF]
    | _ :: _, [] => simp [lcsLenF]
    | a :: as, b :: bs =>
      simp only [lcsLenF, List.length_cons]
      split
      · exact Nat.succ_le_succ (ih as bs)
      · exact max_le (ih as (b :: bs)) ((ih (a :: as) bs).trans (Nat.le_succ _))

theorem lcsLenF_self : ∀ (l : List Char) (f : Nat), 2 * l.length ≤ f →
    lcsLenF f l l = l.length := by
  intro l
  induction l with
  | nil => intro f _; cases f <;> simp [lcsLenF]
  | cons a as ih =>
    intro f hf
    match f, hf with
    | g + 1, hf =>
      have h₂ : 2 * as.length ≤ g := by simp [List.length_cons] at hf; omega
      simp [lcsLenF, ih g h₂]

/-- Identical strings score exactly `1`. -/
theorem charSim_self (s : String) : charSim s s = 1 := by
  unfold charSim
  by_cases h : s.data.length + s.data.length = 0
  · rw [if_pos h]
  · have hl : lcsLen s.data s.data = s.data.length :=
      lcsLenF_self s.data _ (by omega)
    have hq : ((s.data.length + s.data.length : Nat) : ℚ) ≠ 0 := by
      exact_mod_cast h
    rw [if_neg h, hl, div_eq_one_iff_eq hq]
    push_cast
    ring

/-- The similarity ratio is nonnegative. -/
theorem charSim_nonneg (a b : String) : 0 ≤ charSim a b := by
  unfold charSim
  by_cases h : a.data.length + b.data.length = 0
  · rw [if_pos h]; norm_num
  · rw [if_neg h]
    positivity

/-- The similarity ratio is at most `1`. -/
theorem charSim_le_one (a b : String) : charSim a b ≤ 1 := by
  unfold charSim
  by_cases h : a.data.length + b.data.length = 0
  · rw [if_pos h]
  · have hp : (0 : ℚ) < ((a.data.length + b.data.length : Nat) : ℚ) := by
      exact_mod_cast Nat.pos_of_ne_zero h
    rw [if_neg h, div_le_one hp]
    have h₁ := lcsLenF_le_left (a.data.length + b.data.length) a.data b.data
    have h₂ := lcsLenF_le_right (a.data.length + b.data.length) a.data b.data
    unfold lcsLen
    have : 2 * lcsLenF (a.data.length + b.data.length) a.data b.data ≤
        a.data.length + b.data.length := by omega
    exact_mod_cast this

/-! ### Lemmas about the stable descending sort -/

theorem insDescBy_perm (f : α → ℚ) (x : α) (l : List α) :
    List.Perm (insDescBy f x l) (x :: l) := by
  induction l with
  | nil => exact List.Perm.refl _
  | cons y ys ih =>
    unfold insDescBy
    split
    · exact List.Perm.refl _
    · exact (ih.cons y).trans (List.Perm.swap x y ys)

theorem sortDescBy_perm (f : α → ℚ) (l : List α) :
    List.Perm (sortDescBy f l) l := by
  induction l with
  | nil => exact List.Perm.refl _
  | cons x xs ih =>
    exact (insDescBy_perm f x (sortDescBy f xs)).trans (ih.cons x)

theorem mem_insDescBy (f : α → ℚ) (x : α) (l : List α) (a : α) :
    a ∈ insDescBy f x l ↔ a = x ∨ a ∈ l := by
  rw [(insDescBy_perm f x l).mem_iff, List.mem_cons]

theorem insDescBy_pairwise (f : α → ℚ) (x : α) (l : List α)
    (h : l.Pairwise (fun a b => f b ≤ f a)) :
    (insDescBy f x l).Pairwise (fun a b => f b ≤ f a) := by
  induction l with
  | nil => simp [insDescBy]
  | cons y ys ih =>
    rw [List.pairwise_cons] at h
    unfold insDescBy
    split
    · rename_i hle
      refine List.pairwise_cons.2 ⟨?_, List.pairwise_cons.2 h⟩
      intro b hb
      rcases List.mem_cons.1 hb with hb | hb
      · exact hb ▸ hle
      · exact (h.1 b hb).trans hle
    · rename_i hgt
      push_neg at hgt
      refine List.pairwise_cons.2 ⟨?_, ih h.2⟩
      intro b hb
      rcases (mem_insDescBy f x ys b).1 hb with hb | hb
      · exact hb ▸ le_of_lt hgt
      · exact h.1 b hb

theorem sortDescBy_pairwise (f : α → ℚ) (l : List α) :
    (sortDescBy f l).Pairwise (fun a b => f b ≤ f a) := by
  induction l with
  | nil => simp [sortDescBy]
  | cons x xs ih => exact insDescBy_pairwise f x (sortDescBy f xs) ih

theorem insDescBy_filter_eq (f : α → ℚ) (s : ℚ) (x : α) (l : List α) :
    (insDescBy f x l).filter (fun a => decide (f a = s)) =
      if f x = s then x :: l.filter (fun a => decide (f a = s))
      else l.filter (fun a => decide (f a = s)) := by
  induction l with
  | nil => simp [insDescBy, List.filter_cons]
  | cons y ys ih =>
    unfold insDescBy
    split
    · rename_i hle
      by_cases hx : f x = s <;> simp [List.filter_cons, hx]
    · rename_i hgt
      push_neg at hgt
      have hy : ¬ f y = s ∨ ¬ f x = s := by
        by_cases hx : f x = s
        · left; rw [hx] at hgt; exact ne_of_gt hgt
        · right; exact hx
      by_cases hx : f x = s
      · have hyne : ¬ f y = s := by
          rcases hy with h | h
          · exact h
          · exact absurd hx h
        simp only [List.filter_cons, ih, if_pos hx]
        simp [hyne]
      · simp only [List.filter_cons, ih, if_neg hx]

theorem sortDescBy_filter_eq (f : α → ℚ) (s : ℚ) (l : List α) :
    (sortDescBy f l).filter (fun a => decide (f a = s)) =
      l.filter (fun a => decide (f a = s)) := by
  induction l with
  | nil => rfl
  | cons x xs ih =>
    unfold sortDescBy
    rw [insDescBy_filter_eq, ih]
    by_cases hx : f x = s <;> simp [List.filter_cons, hx]

/-! ### Prefix and lookup helper lemmas -/

theorem pfxOf_self_append (p q : List Char) : pfxOf p (p ++ q) = true := by
  induction p with
  | nil => rfl
  | cons a as ih => simp [pfxOf, ih]

theorem pfxOf_iff (p l : List Char) : pfxOf p l = true ↔ ∃ q, l = p ++ q := by
  induction p generalizing l with
  | nil => simp [pfxOf]
  | cons a as ih =>
    cases l with
    | nil => simp [pfxOf]
    | cons b bs =>
      simp only [pfxOf, Bool.and_eq_true, decide_eq_true_eq, ih]
      constructor
      · rintro ⟨rfl, q, rfl⟩; exact ⟨q, rfl⟩
      · rintro ⟨q, hq⟩
        injection hq with h₁ h₂
        exact ⟨h₁.symm, q, h₂⟩

theorem find?_key_eq (l : List (Nat × String))
    (hnd : (l.map Prod.fst).Nodup) (p : Nat × String) (hp : p ∈ l) :
    l.find? (fun q => q.1 = p.1) = some p := by
  induction l with
  | nil => cases hp
  | cons q qs ih =>
    simp only [List.map_cons, List.nodup_cons] at hnd
    rcases List.mem_cons.1 hp with rfl | hp'
    · rw [List.find?_cons_of_pos _ (by simp)]
    · have hq : ¬ q.1 = p.1 := by
        intro he
        exact hnd.1 (he ▸ List.mem_map_of_mem Prod.fst hp')
      rw [List.find?_cons_of_neg _ (by simp [hq])]
      exact ih hnd.2 hp'

theorem key_inj (l : List (Nat × String)) (hnd : (l.map Prod.fst).Nodup)
    {p q : Nat × String} (hp : p ∈ l) (hq : q ∈ l) (he : p.1 = q.1) : p = q := by
  have h₁ := find?_key_eq l hnd p hp
  have h₂ := find?_key_eq l hnd q hq
  rw [show (fun r : Nat × String => decide (r.1 = p.1)) =
    (fun r : Nat × String => decide (r.1 = q.1)) by funext r; rw [he]] at h₁
  rw [h₁] at h₂
  exact Option.some_inj.1 h₂

theorem foldl_max_init_le (l : List (Nat × String)) :
    ∀ m : Nat, m ≤ l.foldl (fun m p => max m p.1) m := by
  induction l with
  | nil => intro m; exact le_refl m
  | cons q qs ih =>
    intro m
    exact (le_max_left m q.1).trans (ih (max m q.1))

theorem foldl_max_mem_le (l : List (Nat × String)) :
    ∀ (m : Nat) (p : Nat × String), p ∈ l →
      p.1 ≤ l.foldl (fun m p => max m p.1) m := by
  induction l with
  | nil => intro m p h; cases h
  | cons q qs ih =>
    intro m p hp
    rcases List.mem_cons.1 hp with rfl | hp'
    · exact (le_max_right m p.1).trans (foldl_max_init_le qs _)
    · exact ih (max m q.1) p hp'

theorem mem_le_maxTagId (db : SqlDB) (p : Nat × String) (hp : p ∈ db.tags) :
    p.1 ≤ maxTagId db :=
  foldl_max_mem_le db.tags 0 p hp

/-! ### The SQLite commit: tag-name level characterization -/

theorem insertTagLink_spec (db : SqlDB) (iid : Nat) (t : String)
    (hwf : WFdb db) (hnot : t ∉ itemTagNames db iid) :
    WFdb (insertTagLink db iid t) ∧
    itemTagNames (insertTagLink db iid t) iid = itemTagNames db iid ++ [t] := by
  obtain ⟨hids, hnames, hfk⟩ := hwf
  cases hfind : db.tags.find? (fun p => p.2 = t) with
  | some p =>
    simp only [insertTagLink, hfind]
    have hpmem : p ∈ db.tags := List.mem_of_find?_eq_some hfind
    have hpt : p.2 = t := by simpa using List.find?_some hfind
    have hnotmem : (iid, p.1) ∉ db.itemTags := by
      intro hmem
      apply hnot
      unfold itemTagNames
      rw [List.mem_filterMap]
      refine ⟨(iid, p.1), hmem, ?_⟩
      rw [if_pos rfl, find?_key_eq db.tags hids p hpmem]
      simp [hpt]
    rw [if_neg hnotmem]
    refine ⟨⟨hids, hnames, ?_⟩, ?_⟩
    · intro l hl
      rcases List.mem_append.1 hl with hl | hl
      · exact hfk l hl
      · rw [List.mem_singleton.1 hl]
        exact List.mem_map_of_mem Prod.fst hpmem
    · unfold itemTagNames
      rw [List.filterMap_append]
      congr 1
      have hres := find?_key_eq db.tags hids p hpmem
      simp [List.filterMap, hres, hpt]
  | none =>
    simp only [insertTagLink, hfind]
    have ht_not : t ∉ db.tags.map Prod.snd := by
      intro hmem
      rcases List.mem_map.1 hmem with ⟨q, hq, hqt⟩
      have := List.find?_eq_none.1 hfind q hq
      simp [hqt] at this
    have htid_big : ∀ q ∈ db.tags, q.1 < maxTagId db + 1 := fun q hq =>
      Nat.lt_succ_of_le (mem_le_maxTagId db q hq)
    have htid_notin : maxTagId db + 1 ∉ db.tags.map Prod.fst := by
      intro hmem
      rcases List.mem_map.1 hmem with ⟨q, hq, hqt⟩
      exact absurd hqt (Nat.ne_of_lt (htid_big q hq))
    have hnotmem : (iid, maxTagId db + 1) ∉ db.itemTags := by
      intro hmem
      exact htid_notin (hfk _ hmem)
    rw [if_neg hnotmem]
    have hfind_new : ∀ tid', tid' ∈ db.tags.map Prod.fst →
        (db.tags ++ [(maxTagId db + 1, t)]).find? (fun q => q.1 = tid') =
          db.tags.find? (fun q => q.1 = tid') := by
      intro tid' hmem
      rcases List.mem_map.1 hmem with ⟨q, hq, hqt⟩
      subst hqt
      rw [List.find?_append, find?_key_eq db.tags hids q hq]
      rfl
    refine ⟨⟨?_, ?_, ?_⟩, ?_⟩
    · rw [List.map_append, List.nodup_append]
      exact ⟨hids, List.nodup_singleton _, by
        intro a ha hb
        simp only [List.map_cons, List.map_nil, List.mem_singleton] at hb
        exact htid_notin (hb ▸ ha)⟩
    · rw [List.map_append, List.nodup_append]
      exact ⟨hnames, List.nodup_singleton _, by
        intro a ha hb
        simp only [List.map_cons, List.map_nil, List.mem_singleton] at hb
        exact ht_not (hb ▸ ha)⟩
    · intro l hl
      rw [List.map_append]
      rcases List.mem_append.1 hl with hl | hl
      · exact List.mem_append_left _ (hfk l hl)
      · rw [List.mem_singleton.1 hl]
        simp
    · unfold itemTagNames
      rw [List.filterMap_append]
      congr 1
      · apply List.filterMap_congr
        intro l hl
        by_cases hi : l.1 = iid
        · rw [if_pos hi, if_pos hi, hfind_new l.2 (hfk l hl)]
        · rw [if_neg hi, if_neg hi]
      · simp only [List.filterMap, if_pos rfl]
        have : (db.tags ++ [(maxTagId db + 1, t)]).find?
            (fun q => q.1 = ((iid, maxTagId db + 1) : Nat × Nat).2) =
              some (maxTagId db + 1, t) := by
          rw [List.find?_append]
          have hnone : db.tags.find?
              (fun q => q.1 = ((iid, maxTagId db + 1) : Nat × Nat).2) = none := by
            rw [List.find?_eq_none]
            intro q hq
            simp only [decide_eq_true_eq]
            exact (Nat.ne_of_lt (htid_big q hq))
          rw [hnone]
          simp [List.find?]
        rw [this]
        rfl

theorem filter_filterMap_review (db : SqlDB) (iid : Nat)
    (hids : (db.tags.map Prod.fst).Nodup)
    (hfk : ∀ l ∈ db.itemTags, l.2 ∈ db.tags.map Prod.fst) :
    ∀ L : List (Nat × Nat), (∀ l ∈ L, l ∈ db.itemTags) →
      (L.filter (fun l => ¬(l.1 = iid ∧ l.2 ∈ reviewTagIds db iid))).filterMap
          (fun l => if l.1 = iid then
            (db.tags.find? (fun p => p.1 = l.2)).map Prod.snd else none)
        = (L.filterMap (fun l => if l.1 = iid then
            (db.tags.find? (fun p => p.1 = l.2)).map Prod.snd else none)).filter
            (fun n => !likeReview n) := by
  intro L
  induction L with
  | nil => intro _; rfl
  | cons l L' ih =>
    intro hsub
    have hl : l ∈ db.itemTags := hsub l (List.mem_cons_self l L')
    have hsub' : ∀ x ∈ L', x ∈ db.itemTags :=
      fun x hx => hsub x (List.mem_cons_of_mem l hx)
    by_cases hi : l.1 = iid
    · have hmem2 : l.2 ∈ db.tags.map Prod.fst := hfk l hl
      rcases List.mem_map.1 hmem2 with ⟨r, hr, hrid⟩
      have hres : db.tags.find? (fun p => p.1 = l.2) = some r := by
        rw [← hrid]
        exact find?_key_eq db.tags hids r hr
      have hpair : (iid, r.1) = l := by
        cases l with
        | mk l₁ l₂ => simp only at hi hrid ⊢; exact Prod.ext hi.symm hrid
      by_cases hlike : likeReview r.2 = true
      · have hin : l.2 ∈ reviewTagIds db iid := by
          unfold reviewTagIds
          rw [List.mem_map]
          refine ⟨r, ?_, hrid⟩
          rw [List.mem_filter]
          exact ⟨hr, by simp [hlike, hpair, hl]⟩
        rw [List.filter_cons_of_neg (by simp [hi, hin]),
          List.filterMap_cons]
        rw [if_pos hi, hres]
        simp only [Option.map_some']
        rw [List.filter_cons_of_neg (by simp [hlike])]
        exact ih hsub'
      · have hnotin : l.2 ∉ reviewTagIds db iid := by
          intro hmem
          unfold reviewTagIds at hmem
          rcases List.mem_map.1 hmem with ⟨r', hr', hrid'⟩
          have hr'tags : r' ∈ db.tags := (List.mem_filter.1 hr').1
          have hrr : r' = r :=
            key_inj db.tags hids hr'tags hr (by rw [hrid', ← hrid])
          have := (List.mem_filter.1 hr').2
          rw [hrr] at this
          simp [hlike] at this
        rw [List.filter_cons_of_pos (by simp [hnotin]),
          List.filterMap_cons, List.filterMap_cons]
        rw [if_pos hi, hres]
        simp only [Option.map_some']
        rw [List.filter_cons_of_pos (by simp [hlike])]
        rw [ih hsub']
    · have hpred : (fun q : Nat × Nat =>
          decide ¬(q.1 = iid ∧ q.2 ∈ reviewTagIds db iid)) l = true := by
        simp [hi]
      rw [@List.filter_cons_of_pos (Nat × Nat)
          (fun q => decide ¬(q.1 = iid ∧ q.2 ∈ reviewTagIds db iid)) l L' hpred,
        List.filterMap_cons, List.filterMap_cons, if_neg hi]
      exact ih hsub'

theorem removeReviewLinks_spec (db : SqlDB) (iid : Nat) (hwf : WFdb db) :
    WFdb (removeReviewLinks db iid) ∧
    itemTagNames (removeReviewLinks db iid) iid =
      (itemTagNames db iid).filter (fun n => !likeReview n) := by
  obtain ⟨hids, hnames, hfk⟩ := hwf
  constructor
  · refine ⟨hids, hnames, ?_⟩
    intro l hl
    exact hfk l (List.mem_of_mem_filter hl)
  · exact filter_filterMap_review db iid hids hfk db.itemTags (fun _ h => h)

theorem foldl_insert_spec :
    ∀ (ts : List String) (db : SqlDB) (iid : Nat),
      WFdb db → ts.Nodup → (∀ t ∈ ts, t ∉ itemTagNames db iid) →
      WFdb (ts.foldl (fun d t => insertTagLink d iid t) db) ∧
      itemTagNames (ts.foldl (fun d t => insertTagLink d iid t) db) iid =
        itemTagNames db iid ++ ts := by
  intro ts
  induction ts with
  | nil => intro db iid hwf _ _; exact ⟨hwf, by simp⟩
  | cons t ts' ih =>
    intro db iid hwf hnd hnot
    obtain ⟨hwf', heq'⟩ := insertTagLink_spec db iid t hwf
      (hnot t (List.mem_cons_self t ts'))
    rw [List.nodup_cons] at hnd
    have hnot' : ∀ u ∈ ts', u ∉ itemTagNames (insertTagLink db iid t) iid := by
      intro u hu hmem
      rw [heq'] at hmem
      rcases List.mem_append.1 hmem with hmem | hmem
      · exact hnot u (List.mem_cons_of_mem t hu) hmem
      · exact hnd.1 ((List.mem_singleton.1 hmem) ▸ hu)
    obtain ⟨h₁, h₂⟩ := ih (insertTagLink db iid t) iid hwf' hnd.2 hnot'
    refine ⟨h₁, ?_⟩
    rw [List.foldl_cons] at *
    rw [h₂, heq', List.append_assoc]
    rfl

/-- The master equation of the SQLite commit: for a well-formed store and
a duplicate-free list of `review:`-prefixed target tags, committing one
item replaces exactly the `LIKE 'review:%'` tags — the item's tag names
afterwards are its previous names minus the review-like ones, followed by
the target tags in order. -/
theorem commitItemSql_spec (db : SqlDB) (iid : Nat) (ts : List String)
    (hwf : WFdb db) (hlike : ∀ t ∈ ts, likeReview t = true) (hnd : ts.Nodup) :
    WFdb (commitItemSql db iid ts) ∧
    itemTagNames (commitItemSql db iid ts) iid =
      (itemTagNames db iid).filter (fun n => !likeReview n) ++ ts := by
  obtain ⟨hwf', heq⟩ := removeReviewLinks_spec db iid hwf
  have hnot : ∀ t ∈ ts, t ∉ itemTagNames (removeReviewLinks db iid) iid := by
    intro t ht hmem
    rw [heq] at hmem
    have := List.of_mem_filter hmem
    simp [hlike t ht] at this
  obtain ⟨h₁, h₂⟩ := foldl_insert_spec ts (removeReviewLinks db iid) iid hwf' hnd hnot
  exact ⟨h₁, by unfold commitItemSql; rw [h₂, heq]⟩

/-! ### Reserved tag keys -/

/-- Whether a tag carries the reserved key `k`: it starts with
`review:<k>=`.  The three reserved keys are Decision, Time and Reason. -/
def hasResKey (k : String) (tag : String) : Bool :=
  pfxOf ("review:" ++ k ++ "=").data tag.data

theorem map_lowChar_review : "review:".data.map lowChar = "review:".data := by
  decide

theorem likeReview_of_pfx (p n : String)
    (hlow : p.data.map lowChar = "review:".data ++ (p.data.map lowChar).drop 7)
    (h : pfxOf p.data n.data = true) : likeReview n = true := by
  rw [pfxOf_iff] at h
  obtain ⟨q, hq⟩ := h
  unfold likeReview asciiLower
  show pfxOf "review:".data ((n.data).map lowChar) = true
  rw [hq, List.map_append, hlow, List.append_assoc]
  exact pfxOf_self_append _ _

/-- A tag that carries a reserved key matches `LIKE 'review:%'`. -/
theorem likeReview_of_hasResKey (k n : String) (h : hasResKey k n = true) :
    likeReview n = true := by
  unfold hasResKey at h
  rw [pfxOf_iff] at h
  obtain ⟨q, hq⟩ := h
  unfold likeReview asciiLower
  show pfxOf "review:".data ((n.data).map lowChar) = true
  have hsplit : ("review:" ++ k ++ "=") = "review:" ++ (k ++ "=") := by
    rw [String.append_assoc]
  rw [hsplit, String.data_append] at hq
  rw [hq, List.append_assoc, List.map_append, map_lowChar_review]
  exact pfxOf_self_append _ _

theorem likeReview_decision_tag (x : String) :
    likeReview ("review:Decision=" ++ x) = true := by
  apply likeReview_of_hasResKey "Decision"
  unfold hasResKey
  rw [String.data_append]
  simp [pfxOf]

theorem likeReview_time_tag (x : String) :
    likeReview ("review:Time=" ++ x) = true := by
  apply likeReview_of_hasResKey "Time"
  unfold hasResKey
  rw [String.data_append]
  simp [pfxOf]

theorem likeReview_reason_tag (x : String) :
    likeReview ("review:Reason=" ++ x) = true := by
  apply likeReview_of_hasResKey "Reason"
  unfold hasResKey
  rw [String.data_append]
  simp [pfxOf]

/-- Every tag the row loop builds matches `LIKE 'review:%'`. -/
theorem mkTagsToSet_likeReview (d : Option String) (tv rv : String) :
    ∀ t ∈ mkTagsToSet d tv rv, likeReview t = true := by
  intro t ht
  cases d with
  | none => cases ht
  | some dv =>
    unfold mkTagsToSet at ht
    rcases List.mem_append.1 ht with ht | ht
    · rcases List.mem_append.1 ht with ht | ht
      · exact (List.mem_singleton.1 ht) ▸ likeReview_decision_tag dv
      · split at ht
        · exact (List.mem_singleton.1 ht) ▸ likeReview_time_tag tv
        · cases ht
    · split at ht
      · exact (List.mem_singleton.1 ht) ▸ likeReview_reason_tag rv
      · cases ht

theorem hasResKey_decision_decision (x : String) :
    hasResKey "Decision" ("review:Decision=" ++ x) = true := by
  unfold hasResKey; rw [String.data_append]; simp [pfxOf]

theorem hasResKey_decision_time (x : String) :
    hasResKey "Decision" ("review:Time=" ++ x) = false := by
  unfold hasResKey; rw [String.data_append]; simp [pfxOf]

theorem hasResKey_decision_reason (x : String) :
    hasResKey "Decision" ("review:Reason=" ++ x) = false := by
  unfold hasResKey; rw [String.data_append]; simp [pfxOf]

theorem hasResKey_time_decision (x : String) :
    hasResKey "Time" ("review:Decision=" ++ x) = false := by
  unfold hasResKey; rw [String.data_append]; simp [pfxOf]

theorem hasResKey_time_time (x : String) :
    hasResKey "Time" ("review:Time=" ++ x) = true := by
  unfold hasResKey; rw [String.data_append]; simp [pfxOf]

theorem hasResKey_time_reason (x : String) :
    hasResKey "Time" ("review:Reason=" ++ x) = false := by
  unfold hasResKey; rw [String.data_append]; simp [pfxOf]

theorem hasResKey_reason_decision (x : String) :
    hasResKey "Reason" ("review:Decision=" ++ x) = false := by
  unfold hasResKey; rw [String.data_append]; simp [pfxOf]

theorem hasResKey_reason_time (x : String) :
    hasResKey "Reason" ("review:Time=" ++ x) = false := by
  unfold hasResKey; rw [String.data_append]; simp [pfxOf]

theorem hasResKey_reason_reason (x : String) :
    hasResKey "Reason" ("review:Reason=" ++ x) = true := by
  unfold hasResKey; rw [String.data_append]; simp [pfxOf]

/-- The target tag list never carries a reserved key twice. -/
theorem countP_mkTagsToSet_le_one (k : String)
    (hk : k ∈ (["Decision", "Time", "Reason"] : List String))
    (d : Option String) (tv rv : String) :
    (mkTagsToSet d tv rv).countP (hasResKey k) ≤ 1 := by
  cases d with
  | none => simp [mkTagsToSet]
  | some dv =>
    unfold mkTagsToSet
    simp only [List.mem_cons, List.mem_singleton, List.not_mem_nil, or_false] at hk
    rcases hk with rfl | rfl | rfl
    · by_cases h₁ : tv ≠ "" <;> by_cases h₂ : rv ≠ "" <;>
        simp [h₁, h₂, List.countP_cons, List.countP_append,
          hasResKey_decision_decision, hasResKey_decision_time,
          hasResKey_decision_reason]
    · by_cases h₁ : tv ≠ "" <;> by_cases h₂ : rv ≠ "" <;>
        simp [h₁, h₂, List.countP_cons, List.countP_append,
          hasResKey_time_decision, hasResKey_time_time,
          hasResKey_time_reason]
    · by_cases h₁ : tv ≠ "" <;> by_cases h₂ : rv ≠ "" <;>
        simp [h₁, h₂, List.countP_cons, List.countP_append,
          hasResKey_reason_decision, hasResKey_reason_time,
          hasResKey_reason_reason]

/-- The target tag list is duplicate-free. -/
theorem mkTagsToSet_nodup (d : Option String) (tv rv : String) :
    (mkTagsToSet d tv rv).Nodup := by
  cases d with
  | none => simp [mkTagsToSet]
  | some dv =>
    unfold mkTagsToSet
    have h₁ : ∀ x y : String, ("review:Decision=" ++ x) ≠ ("review:Time=" ++ y) := by
      intro x y h
      have := congrArg String.data h
      rw [String.data_append, String.data_append] at this
      simp at this
    have h₂ : ∀ x y : String, ("review:Decision=" ++ x) ≠ ("review:Reason=" ++ y) := by
      intro x y h
      have := congrArg String.data h
      rw [String.data_append, String.data_append] at this
      simp at this
    have h₃ : ∀ x y : String, ("review:Time=" ++ x) ≠ ("review:Reason=" ++ y) := by
      intro x y h
      have := congrArg String.data h
      rw [String.data_append, String.data_append] at this
      simp at this
    by_cases ht : tv ≠ "" <;> by_cases hr : rv ≠ "" <;>
      simp [ht, hr, h₁ dv tv, h₂ dv rv, h₃ tv rv]

/-! ### Remote-path lemmas -/

theorem ensureTags_keeps (cur ts : List String) :
    ∀ t ∈ cur, t ∈ ensureTags cur ts := by
  unfold ensureTags
  induction ts generalizing cur with
  | nil => intro t ht; exact ht
  | cons u ts' ih =>
    intro t ht
    rw [List.foldl_cons]
    apply ih
    split
    · exact ht
    · exact List.mem_append_left _ ht

theorem commitFold_go (commitOk : String → Bool) (hok : ∀ k, commitOk k = true)
    (ts : List String) :
    ∀ (items : List ZItem) (acc : RemoteOutcome),
      items.foldl (fun acc it =>
        let newTags := ensureTags it.tags ts
        { report :=
            if commitOk it.key then
              { acc.report with updated := acc.report.updated + 1 }
            else
              { acc.report with errors := acc.report.errors + 1 },
          puts := acc.puts ++ [(it.key, newTags)] }) acc =
      ⟨⟨acc.report.updated + items.length, acc.report.notFound, acc.report.errors⟩,
        acc.puts ++ items.map (fun it => (it.key, ensureTags it.tags ts))⟩ := by
  intro items
  induction items with
  | nil =>
    intro acc
    simp
  | cons it items' ih =>
    intro acc
    rw [List.foldl_cons, ih]
    rw [hok it.key]
    simp only [if_true]
    congr 1
    · simp only [List.length_cons]
      congr 1
      omega
    · simp

/-- When every PUT succeeds, the commit loop counts exactly one `updated`
per matched item and issues exactly one PUT per matched item. -/
theorem commitFold_all_ok (commitOk : String → Bool)
    (hok : ∀ k, commitOk k = true) (ts : List String) (items : List ZItem) :
    commitFold commitOk ts items =
      ⟨⟨items.length, 0, 0⟩,
        items.map (fun it => (it.key, ensureTags it.tags ts))⟩ := by
  unfold commitFold
  rw [commitFold_go commitOk hok ts items ⟨⟨0, 0, 0⟩, []⟩]
  simp

/-! ### Claim C5: timestamp formatting -/

/-- C5, counterexample.  The claim says a raw timestamp that fails to
parse yields the empty string; on the non-blank unparseable input
`"not a timestamp"` the function instead returns the raw value unchanged
(the source's `except` branch does `return str(val)`), which is not
empty. -/
theorem C5_counterexample :
    formatReviewTime (PyVal.pystr "not a timestamp") = "not a timestamp" ∧
      ¬ formatReviewTime (PyVal.pystr "not a timestamp") = "" := by
  constructor <;> decide

/-- C5, amended.  `_format_review_time` is total (never raises): `NaN`,
`None` and blank strings give the empty string, a parseable ISO-8601
timestamp is rendered as `YYYY-MM-DD HH:MM` (the spec scenario input
`2020-05-01T09:30:00Z` renders as `2020-05-01 09:30`), but on a parse
failure of a non-blank input the raw string is returned unchanged — not
the empty string the claim asks for. -/
theorem C5_format_time_amended :
    formatReviewTime PyVal.nan = "" ∧
    formatReviewTime PyVal.pynone = "" ∧
    (∀ s : String, (⟨pyStripChars s.data⟩ : String) = "" →
      formatReviewTime (PyVal.pystr s) = "") ∧
    (∀ (s : String) (cs : List Char), (⟨pyStripChars s.data⟩ : String) ≠ "" →
      parseIso s = some cs → formatReviewTime (PyVal.pystr s) = ⟨cs⟩) ∧
    (∀ s : String, (⟨pyStripChars s.data⟩ : String) ≠ "" →
      parseIso s = none → formatReviewTime (PyVal.pystr s) = s) ∧
    formatReviewTime (PyVal.pystr "2020-05-01T09:30:00Z") = "2020-05-01 09:30" := by
  refine ⟨rfl, rfl, ?_, ?_, ?_, by decide⟩
  · intro s hs
    simp only [formatReviewTime]
    rw [if_pos hs]
  · intro s cs hs hparse
    simp only [formatReviewTime]
    rw [if_neg hs, hparse]
  · intro s hs hparse
    simp only [formatReviewTime]
    rw [if_neg hs, hparse]

/-- C5, witness for the amended theorem at concrete inputs. -/
theorem C5_format_time_amended_witness :
    formatReviewTime (PyVal.pystr "abc") = "abc" ∧
      formatReviewTime (PyVal.pystr "  ") = "" :=
  ⟨C5_format_time_amended.2.2.2.2.1 "abc" (by decide) (by decide),
    C5_format_time_amended.2.2.1 "  " (by decide)⟩

/-! ### Claim C6: preservation of non-review tags -/

/-- A store with one item (id 10, key `K1`, title `x`) in the library of
group 7, carrying the single tag `Review:keep` — capital R, so it does
not start with the literal prefix `review:`. -/
def dbC6 : SqlDB :=
  { groups := [(7, 1)], items := [(10, "K1", 1)], itemTitles := [(10, "x")],
    tags := [(1, "Review:keep")], itemTags := [(10, 1)] }

/-- The store after the C6 row is applied: the `Review:keep` join row is
gone and the decision tag was inserted under the fresh id 2. -/
def dbC6after : SqlDB :=
  { groups := [(7, 1)], items := [(10, "K1", 1)], itemTitles := [(10, "x")],
    tags := [(1, "Review:keep"), (2, "review:Decision=included")],
    itemTags := [(10, 2)] }

/-- An input row matching the item of `dbC6` by title, with an `included`
decision and no time or note. -/
def rowC6 : Row :=
  { title := "x", year := "", doi := "", label := "1",
    time := PyVal.pystr "", note := PyVal.pystr "" }

theorem findItemsSqlite_dbC6 :
    findItemsSqlite dbC6 "x" "" 7 (9 / 10) = [("K1", (1 : ℚ))] := by
  have hax : asciiLower (norm "x") = "x" := by decide
  have hsim : charSim "x" "x" = 1 := charSim_self "x"
  have hle : (9 / 10 : ℚ) ≤ 1 := by norm_num
  simp [findItemsSqlite, dbC6, hax, hsim, hle, sortDescBy, insDescBy,
    List.find?, List.filter]

theorem processRowSqlite_dbC6 :
    processRowSqlite dbC6 rowC6 7 (9 / 10) = (dbC6after, ⟨1, 0, 0⟩) := by
  have hn : norm "x" = "x" := by decide
  have hy : norm "" = "" := by decide
  have happ : sqlApplyMatches dbC6 ["K1"] ["review:Decision=included"] =
      (dbC6after, 1, 0) := by decide
  have hts : rowTags
      { title := "x", year := "", doi := "", label := "1",
        time := PyVal.pystr "", note := PyVal.pystr "" }
      = ["review:Decision=included"] := by decide
  simp [processRowSqlite, rowC6, hn, hy, findItemsSqlite_dbC6, hts, happ]

/-- C6, counterexample.  The claim says every tag that does not start
with the `review:` prefix survives reconciliation in both paths.  In the
SQLite path the removal uses `LIKE 'review:%'`, which SQLite evaluates
case-insensitively for ASCII: the prior tag `Review:keep` does not start
with `review:`, yet after the row is applied it is no longer joined to
the record. -/
theorem C6_counterexample :
    "Review:keep" ∈ itemTagNames dbC6 10 ∧
    pfxOf "review:".data "Review:keep".data = false ∧
    "Review:keep" ∉ itemTagNames (processRowSqlite dbC6 rowC6 7 (9 / 10)).1 10 := by
  refine ⟨by decide, by decide, ?_⟩
  rw [processRowSqlite_dbC6]
  decide

/-- C6, amended.  In the remote path every tag present before the commit
is still present after (the `ensure_tag` loop only appends).  In the
SQLite path every prior tag whose name does not match `review:%`
case-insensitively is still joined to the record after the commit; the
preservation boundary is SQLite's case-insensitive `LIKE`, not the
literal `review:` prefix of the claim, so case variants such as
`Review:keep` are also removed. -/
theorem C6_preservation_amended :
    (∀ (cur ts : List String) (t : String), t ∈ cur → t ∈ ensureTags cur ts) ∧
    (∀ (db : SqlDB) (iid : Nat) (d : Option String) (tv rv : String),
      WFdb db → ∀ n ∈ itemTagNames db iid, likeReview n = false →
        n ∈ itemTagNames (commitItemSql db iid (mkTagsToSet d tv rv)) iid) := by
  refine ⟨ensureTags_keeps, ?_⟩
  intro db iid d tv rv hwf n hn hlike
  obtain ⟨_, heq⟩ := commitItemSql_spec db iid (mkTagsToSet d tv rv) hwf
    (mkTagsToSet_likeReview d tv rv) (mkTagsToSet_nodup d tv rv)
  rw [heq]
  apply List.mem_append_left
  rw [List.mem_filter]
  exact ⟨hn, by simp [hlike]⟩

/-- A store whose single item carries one non-review tag `keep`. -/
def dbKeep : SqlDB :=
  { groups := [(7, 1)], items := [(10, "K1", 1)], itemTitles := [(10, "x")],
    tags := [(1, "keep")], itemTags := [(10, 1)] }

/-- C6, witness: the amended preservation applied at concrete inputs. -/
theorem C6_preservation_amended_witness :
    "a" ∈ ensureTags ["a"] ["review:Decision=included"] ∧
    "keep" ∈ itemTagNames
      (commitItemSql dbKeep 10 (mkTagsToSet (some "included") "" "")) 10 :=
  ⟨C6_preservation_amended.1 ["a"] ["review:Decision=included"] "a" (by decide),
    C6_preservation_amended.2 dbKeep 10 (some "included") "" ""
      ⟨by decide, by decide, by decide⟩ "keep" (by decide) (by decide)⟩

/-! ### Claim C1: at most one tag per reserved key -/

/-- A remote item that already carries a Decision tag with the opposite
value. -/
def itC1 : ZItem :=
  { key := "K1", version := 3, title := "x", date := "", publicationYear := "",
    doi := "", tags := ["review:Decision=excluded"] }

/-- The C1 row: matches `itC1` by exact title and decides `included`. -/
def rowC1 : Row :=
  { title := "x", year := "", doi := "", label := "1",
    time := PyVal.pystr "", note := PyVal.pystr "" }

/-- C1, counterexample.  In the remote commit path a prior tag under the
same reserved key is not removed: the PUT sent for a record that already
carries `review:Decision=excluded` when the new decision is `included`
contains both Decision tags, so the record ends with two tags under the
reserved key Decision. -/
theorem C1_counterexample :
    processRowRemote [itC1] [itC1] rowC1 (9 / 10) false (fun _ => true) =
      ⟨⟨1, 0, 0⟩,
        [("K1", ["review:Decision=excluded", "review:Decision=included"])]⟩ ∧
    ¬ (List.countP (hasResKey "Decision")
        ["review:Decision=excluded", "review:Decision=included"] ≤ 1) := by
  constructor <;> decide

/-- C1, amended.  The SQLite commit path does remove every prior
review-like tag before inserting the replacements, so after it a record
carries at most one tag per reserved key.  The remote path never removes
anything — `ensure_tag` only appends missing tags — so there a prior tag
under the same reserved key with a different value survives next to the
new one. -/
theorem C1_reserved_key_amended :
    (∀ (db : SqlDB) (iid : Nat) (d : Option String) (tv rv k : String),
      WFdb db → k ∈ (["Decision", "Time", "Reason"] : List String) →
      (itemTagNames (commitItemSql db iid (mkTagsToSet d tv rv)) iid).countP
        (hasResKey k) ≤ 1) ∧
    (∀ (cur ts : List String) (t : String), t ∈ cur → t ∈ ensureTags cur ts) := by
  refine ⟨?_, ensureTags_keeps⟩
  intro db iid d tv rv k hwf hk
  obtain ⟨_, heq⟩ := commitItemSql_spec db iid (mkTagsToSet d tv rv) hwf
    (mkTagsToSet_likeReview d tv rv) (mkTagsToSet_nodup d tv rv)
  rw [heq, List.countP_append]
  have hzero : ((itemTagNames db iid).filter (fun n => !likeReview n)).countP
      (hasResKey k) = 0 := by
    rw [List.countP_eq_zero]
    intro n hn hkey
    have h₁ := List.of_mem_filter hn
    rw [likeReview_of_hasResKey k n hkey] at h₁
    cases h₁
  rw [hzero, Nat.zero_add]
  exact countP_mkTagsToSet_le_one k hk d tv rv

/-- C1, witness: the amended statement applied to the `dbC6` store and to
a concrete remote tag list. -/
theorem C1_reserved_key_amended_witness :
    (itemTagNames (commitItemSql dbC6 10 (mkTagsToSet (some "included") "" "")) 10).countP
      (hasResKey "Decision") ≤ 1 ∧
    "keep" ∈ ensureTags ["keep"] ["review:Decision=included"] :=
  ⟨C1_reserved_key_amended.1 dbC6 10 (some "included") "" "" "Decision"
      ⟨by decide, by decide, by decide⟩ (by decide),
    C1_reserved_key_amended.2 ["keep"] ["review:Decision=included"] "keep" (by decide)⟩

/-! ### Claim C3: the not-found counter -/

/-- A store whose group exists but which holds no items at all. -/
def dbNoItems : SqlDB :=
  { groups := [(7, 1)], items := [], itemTitles := [], tags := [], itemTags := [] }

/-- C3, counterexample.  The claim says an unmatched row increments
`not_found` exactly once in both paths.  In the SQLite path the row loop
`continue`s before the `not_found` bookkeeping is ever reached: a row
that matches nothing leaves every counter at zero. -/
theorem C3_counterexample :
    findItemsSqlite dbNoItems (norm rowC6.title) (norm rowC6.year) 7 (9 / 10) = [] ∧
    ¬ ((processRowSqlite dbNoItems rowC6 7 (9 / 10)).2.notFound = 1) := by
  constructor <;> decide

/-- C3, amended.  In the remote path an unmatched row contributes exactly
`{updated 0, not_found 1, errors 0}` and issues no PUT, whatever the
dry-run flag; in the SQLite path an unmatched row contributes no counter
change at all and leaves the store untouched — `not_found` is never
incremented on that path. -/
theorem C3_not_found_amended :
    (∀ (poolTY poolFZ : List ZItem) (row : Row) (thr : ℚ) (dry : Bool)
        (ok : String → Bool),
      remoteMatch poolTY poolFZ (norm row.title) (norm row.year) thr = [] →
      processRowRemote poolTY poolFZ row thr dry ok = ⟨⟨0, 1, 0⟩, []⟩) ∧
    (∀ (db : SqlDB) (row : Row) (lib : Nat) (thr : ℚ),
      findItemsSqlite db (norm row.title) (norm row.year) lib thr = [] →
      processRowSqlite db row lib thr = (db, ⟨0, 0, 0⟩)) := by
  constructor
  · intro poolTY poolFZ row thr dry ok h
    simp only [processRowRemote]
    rw [h]
    rfl
  · intro db row lib thr h
    simp only [processRowSqlite]
    rw [h]
    cases hts : (rowTags row).isEmpty <;> simp [hts, sqlApplyMatches]

/-- C3, witness: the amended statement at an empty remote pool and at the
item-free store. -/
theorem C3_not_found_amended_witness :
    processRowRemote [] [] rowC1 (9 / 10) false (fun _ => true) = ⟨⟨0, 1, 0⟩, []⟩ ∧
    processRowSqlite dbNoItems rowC1 7 (9 / 10) = (dbNoItems, ⟨0, 0, 0⟩) :=
  ⟨C3_not_found_amended.1 [] [] rowC1 (9 / 10) false (fun _ => true) (by decide),
    C3_not_found_amended.2 dbNoItems rowC1 7 (9 / 10) (by decide)⟩

/-! ### Claim C4: dry-run neutrality -/

/-- The SQLite row step as the orchestrator invokes it: the `dry_run`
argument is in scope in `apply_asreview_decisions` but, as in the source,
the SQLite branch never consults it. -/
def processRowSqliteDry (dryRun : Bool) (db : SqlDB) (row : Row)
    (libraryId : Nat) (thr : ℚ) : SqlDB × Report :=
  processRowSqlite db row libraryId thr

/-- A remote item with no tags, matched by title `x`. -/
def itPlain : ZItem :=
  { key := "P1", version := 1, title := "x", date := "", publicationYear := "",
    doi := "", tags := [] }

/-- A row matching `itPlain` whose label `maybe` maps to no decision. -/
def rowMaybe : Row :=
  { title := "x", year := "", doi := "", label := "maybe",
    time := PyVal.pystr "", note := PyVal.pystr "" }

/-- C4, counterexample.  For a matched row whose label maps to no
decision the real run skips the row (`updated` stays 0) while the dry run
still counts one `updated` per match, so dry-run counters differ from
real-run counters. -/
theorem C4_counterexample :
    (processRowRemote [itPlain] [itPlain] rowMaybe (9 / 10) true
        (fun _ => true)).report = ⟨1, 0, 0⟩ ∧
    (processRowRemote [itPlain] [itPlain] rowMaybe (9 / 10) false
        (fun _ => true)).report = ⟨0, 0, 0⟩ ∧
    ¬ ((⟨1, 0, 0⟩ : Report) = ⟨0, 0, 0⟩) := by
  refine ⟨by decide, by decide, by decide⟩

theorem processRowRemote_dry (poolTY poolFZ : List ZItem) (row : Row)
    (thr : ℚ) (ok : String → Bool) (hok : ∀ k, ok k = true)
    (hts : rowTags row ≠ []) :
    (processRowRemote poolTY poolFZ row thr true ok).report =
      (processRowRemote poolTY poolFZ row thr false ok).report ∧
    (processRowRemote poolTY poolFZ row thr true ok).puts = [] := by
  simp only [processRowRemote]
  cases hit : (remoteMatch poolTY poolFZ (norm row.title) (norm row.year) thr).isEmpty
  · have hts' : (rowTags row).isEmpty = false := by
      cases hrt : rowTags row
      · exact absurd hrt hts
      · rfl
    rw [commitFold_all_ok ok hok]
    simp [hts']
  · simp

/-- C4, amended.  Dry-run neutrality holds on the remote path only under
two extra conditions: every commit succeeds and every row carries a
non-empty target tag set (a matched row with no actionable decision is
counted `updated` by the dry run but skipped by the real run, as the
counterexample shows).  Under those conditions the dry run produces the
same counters as the real run and issues zero PUTs.  The SQLite path
ignores `dry_run` altogether: with a database path the run mutates the
store and counts identically whether or not dry-run is requested. -/
theorem C4_dry_run_amended :
    (∀ (poolTY poolFZ : List ZItem) (rows : List Row) (thr : ℚ)
        (ok : String → Bool),
      (∀ k, ok k = true) → (∀ row ∈ rows, rowTags row ≠ []) →
      (runRemote poolTY poolFZ rows thr true ok).report =
        (runRemote poolTY poolFZ rows thr false ok).report ∧
      (runRemote poolTY poolFZ rows thr true ok).puts = []) ∧
    (∀ (d₁ d₂ : Bool) (db : SqlDB) (row : Row) (lib : Nat) (thr : ℚ),
      processRowSqliteDry d₁ db row lib thr = processRowSqliteDry d₂ db row lib thr) := by
  constructor
  · intro poolTY poolFZ rows thr ok hok hrows
    unfold runRemote
    suffices h : ∀ (acc₁ acc₂ : RemoteOutcome),
        acc₁.report = acc₂.report → acc₁.puts = [] →
        (rows.foldl (fun acc row =>
          let o := processRowRemote poolTY poolFZ row thr true ok
          ⟨acc.report.add o.report, acc.puts ++ o.puts⟩) acc₁).report =
          (rows.foldl (fun acc row =>
            let o := processRowRemote poolTY poolFZ row thr false ok
            ⟨acc.report.add o.report, acc.puts ++ o.puts⟩) acc₂).report ∧
        (rows.foldl (fun acc row =>
          let o := processRowRemote poolTY poolFZ row thr true ok
          ⟨acc.report.add o.report, acc.puts ++ o.puts⟩) acc₁).puts = acc₁.puts by
      exact h ⟨⟨0, 0, 0⟩, []⟩ ⟨⟨0, 0, 0⟩, []⟩ rfl rfl
    induction rows with
    | nil => intro acc₁ acc₂ hr hp; exact ⟨hr, rfl⟩
    | cons row rows' ih =>
      intro acc₁ acc₂ hr hp
      have hrow := processRowRemote_dry poolTY poolFZ row thr ok hok
        (hrows row (List.mem_cons_self row rows'))
      have hrows' : ∀ r ∈ rows', rowTags r ≠ [] :=
        fun r hrr => hrows r (List.mem_cons_of_mem row hrr)
      simp only [List.foldl_cons]
      have := ih hrows'
        ⟨acc₁.report.add (processRowRemote poolTY poolFZ row thr true ok).report,
          acc₁.puts ++ (processRowRemote poolTY poolFZ row thr true ok).puts⟩
        ⟨acc₂.report.add (processRowRemote poolTY poolFZ row thr false ok).report,
          acc₂.puts ++ (processRowRemote poolTY poolFZ row thr false ok).puts⟩
        (by rw [hr, hrow.1]) (by rw [hrow.2, hp, List.append_nil])
      refine ⟨this.1, ?_⟩
      rw [this.2, hrow.2, List.append_nil]
  · intro d₁ d₂ db row lib thr
    rfl

/-- C4, witness: the amended neutrality at a one-row batch against the
store of `itC1`, and the dry-run independence of the SQLite step on the
`dbC6` store. -/
theorem C4_dry_run_amended_witness :
    ((runRemote [itC1] [itC1] [rowC1] (9 / 10) true (fun _ => true)).report =
      (runRemote [itC1] [itC1] [rowC1] (9 / 10) false (fun _ => true)).report ∧
     (runRemote [itC1] [itC1] [rowC1] (9 / 10) true (fun _ => true)).puts = []) ∧
    processRowSqliteDry true dbC6 rowC6 7 (9 / 10) =
      processRowSqliteDry false dbC6 rowC6 7 (9 / 10) :=
  ⟨C4_dry_run_amended.1 [itC1] [itC1] [rowC1] (9 / 10) (fun _ => true)
      (fun _ => rfl) (by decide),
    C4_dry_run_amended.2 true false dbC6 rowC6 7 (9 / 10)⟩

/-! ### Claim C2: the identifier matching strategy -/

/-- A remote item whose DOI matches the C2 row but whose title does not. -/
def itC2 : ZItem :=
  { key := "D1", version := 1, title := "b", date := "", publicationYear := "",
    doi := "10.1/x", tags := [] }

theorem charSim_a_b : charSim "a" "b" = 0 := by
  have h : lcsLen "a".data "b".data = 0 := by decide
  unfold charSim
  rw [if_neg (by decide), h]
  norm_num

theorem searchFuzzy_itC2 : searchFuzzy [itC2] "a" "" (9 / 10) = [] := by
  have e₁ : asciiLower (norm "a") = "a" := by decide
  have e₂ : asciiLower (norm itC2.title) = "b" := by decide
  have hfs : fuzzyScore (asciiLower (norm "a")) "" itC2 = 0 := by
    unfold fuzzyScore
    rw [if_neg (by simp), e₁, e₂, charSim_a_b]
  have hlt : ¬ (9 / 10 : ℚ) ≤ 0 := by norm_num
  simp [searchFuzzy, searchFuzzyScored, hfs, hlt, e₂, sortDescBy]

/-- C2, counterexample.  The claim says that for a row with a non-empty
identifier the matcher's first strategy is an exact identifier search and
that a non-empty identifier result is returned verbatim.  In the code the
identifier is normalized but never used for matching: `_search_by_doi` is
never invoked by the row loop.  Here the identifier search would return
the record, yet the matcher (exact title+year, then fuzzy) returns
nothing at all. -/
theorem C2_counterexample :
    searchByDoi [itC2] "10.1/x" = [itC2] ∧
    remoteMatch [itC2] [itC2] "a" "" (9 / 10) = [] ∧
    remoteMatch [itC2] [itC2] "a" "" (9 / 10) ≠ searchByDoi [itC2] "10.1/x" := by
  have hty : searchByTitleYear [itC2] "a" "" = [] := by decide
  have hm : remoteMatch [itC2] [itC2] "a" "" (9 / 10) = [] := by
    unfold remoteMatch
    rw [hty, searchFuzzy_itC2]
    rfl
  refine ⟨by decide, hm, ?_⟩
  rw [hm]
  decide

/-- C2, amended.  The identifier plays no part in matching: the row
loop's first strategy is the exact title+year search, whose non-empty
result wins without escalating to the fuzzy search, and the outcome of a
row is unchanged under any replacement of its identifier field.  The
identifier-search helper exists in the module but is not called. -/
theorem C2_matcher_amended :
    (∀ (poolTY poolFZ : List ZItem) (title year : String) (thr : ℚ),
      searchByTitleYear poolTY title year ≠ [] →
      remoteMatch poolTY poolFZ title year thr = searchByTitleYear poolTY title year) ∧
    (∀ (poolTY poolFZ : List ZItem) (row : Row) (thr : ℚ) (dry : Bool)
        (ok : String → Bool) (d : String),
      processRowRemote poolTY poolFZ { row with doi := d } thr dry ok =
        processRowRemote poolTY poolFZ row thr dry ok) := by
  constructor
  · intro poolTY poolFZ title year thr h
    unfold remoteMatch
    cases hty : searchByTitleYear poolTY title year with
    | nil => exact absurd hty h
    | cons x xs => simp
  · intro poolTY poolFZ row thr dry ok d
    simp [processRowRemote, rowTags]

/-- C2, witness: the amended statement at the store of `itC1` (title
match wins) and at the C2 row under a changed identifier. -/
theorem C2_matcher_amended_witness :
    remoteMatch [itC1] [itC1] "x" "" (9 / 10) = searchByTitleYear [itC1] "x" "" ∧
    processRowRemote [itC2] [itC2] { rowC1 with doi := "10.9/z" } (9 / 10) false
        (fun _ => true) =
      processRowRemote [itC2] [itC2] rowC1 (9 / 10) false (fun _ => true) :=
  ⟨C2_matcher_amended.1 [itC1] [itC1] "x" "" (9 / 10) (by decide),
    C2_matcher_amended.2 [itC2] [itC2] rowC1 (9 / 10) false (fun _ => true) "10.9/z"⟩

/-! ### Claim C7: fuzzy threshold boundary and stable descending order -/

/-- C7.  In the fuzzy fallback: a candidate whose score (year bonus
included) equals the threshold exactly is returned; every returned score
is at or above the threshold, so a score strictly below it is excluded;
the returned sequence is sorted by score descending; and for every score
value the returned candidates of that score appear in their original
store order (stability of the sort). -/
theorem C7_fuzzy_boundary_and_sort (pool : List ZItem) (title year : String)
    (thr : ℚ) (ht : norm title ≠ "") :
    (∀ it ∈ pool, asciiLower (norm it.title) ≠ "" →
      fuzzyScore (asciiLower (norm title)) year it = thr →
      (thr, it) ∈ searchFuzzyScored pool title year thr ∧
        it ∈ searchFuzzy pool title year thr) ∧
    (∀ (s : ℚ) (it : ZItem),
      (s, it) ∈ searchFuzzyScored pool title year thr → thr ≤ s) ∧
    (searchFuzzyScored pool title year thr).Pairwise (fun a b => b.1 ≤ a.1) ∧
    (∀ s : ℚ,
      (searchFuzzyScored pool title year thr).filter (fun p => decide (p.1 = s)) =
      (pool.filterMap (fun it =>
        if asciiLower (norm it.title) = "" then none
        else if thr ≤ fuzzyScore (asciiLower (norm title)) year it then
          some (fuzzyScore (asciiLower (norm title)) year it, it)
        else none)).filter (fun p => decide (p.1 = s))) := by
  have hred : searchFuzzyScored pool title year thr = sortDescBy Prod.fst
      (pool.filterMap (fun it =>
        if asciiLower (norm it.title) = "" then none
        else if thr ≤ fuzzyScore (asciiLower (norm title)) year it then
          some (fuzzyScore (asciiLower (norm title)) year it, it)
        else none)) := by
    simp only [searchFuzzyScored]
    rw [if_neg ht]
  refine ⟨?_, ?_, ?_, ?_⟩
  · intro it hit hct hsc
    have hmem : (thr, it) ∈ searchFuzzyScored pool title year thr := by
      rw [hred]
      apply ((sortDescBy_perm _ _).mem_iff).2
      rw [List.mem_filterMap]
      refine ⟨it, hit, ?_⟩
      rw [if_neg hct, hsc, if_pos le_rfl]
    exact ⟨hmem, by
      unfold searchFuzzy
      exact List.mem_map_of_mem Prod.snd hmem⟩
  · intro s it hmem
    rw [hred] at hmem
    have h := ((sortDescBy_perm _ _).mem_iff).1 hmem
    rw [List.mem_filterMap] at h
    obtain ⟨a, _, hfa⟩ := h
    by_cases h₁ : asciiLower (norm a.title) = ""
    · rw [if_pos h₁] at hfa; cases hfa
    · rw [if_neg h₁] at hfa
      by_cases h₂ : thr ≤ fuzzyScore (asciiLower (norm title)) year a
      · rw [if_pos h₂] at hfa
        have hp := Option.some_inj.1 hfa
        have hfst := congrArg Prod.fst hp
        simp only at hfst
        rwa [hfst] at h₂
      · rw [if_neg h₂] at hfa; cases hfa
  · rw [hred]; exact sortDescBy_pairwise _ _
  · intro s; rw [hred]; exact sortDescBy_filter_eq _ s _

/-- C7, witness: a candidate scoring exactly the threshold 1 is included,
and the returned item list carries it. -/
theorem C7_fuzzy_boundary_and_sort_witness :
    (1, itPlain) ∈ searchFuzzyScored [itPlain] "x" "" 1 ∧
    itPlain ∈ searchFuzzy [itPlain] "x" "" 1 := by
  have e₁ : asciiLower (norm "x") = "x" := by decide
  have e₂ : asciiLower (norm itPlain.title) = "x" := by decide
  have hsc : fuzzyScore (asciiLower (norm "x")) "" itPlain = 1 := by
    unfold fuzzyScore
    rw [if_neg (by simp), e₁, e₂, charSim_self]
  exact (C7_fuzzy_boundary_and_sort [itPlain] "x" "" 1 (by decide)).1 itPlain
    (by decide) (by decide) hsc

/-! ### Claim C8: the range of similarity scores -/

/-- A remote item with title `a` and date `2020`, so the fuzzy match of a
row titled `a` with year `2020` earns the `+0.02` year bonus on top of a
perfect title similarity. -/
def itYear : ZItem :=
  { key := "Y1", version := 1, title := "a", date := "2020",
    publicationYear := "", doi := "", tags := [] }

/-- C8, counterexample.  A fuzzy candidate with identical title and
matching year scores `1 + 0.02 = 51/50`, which is kept by the search and
lies outside `[0,1]`. -/
theorem C8_counterexample :
    searchFuzzyScored [itYear] "a" "2020" (1 / 2) = [((51 : ℚ) / 50, itYear)] ∧
    ¬ ((51 : ℚ) / 50 ≤ 1) := by
  have e₁ : asciiLower (norm "a") = "a" := by decide
  have e₂ : asciiLower (norm itYear.title) = "a" := by decide
  have hry : resolvedYear itYear = "2020" := by decide
  have hfs : fuzzyScore (asciiLower (norm "a")) "2020" itYear = 51 / 50 := by
    unfold fuzzyScore
    rw [if_pos ⟨by decide, hry⟩, e₁, e₂, charSim_self]
    norm_num
  have hle : (1 / 2 : ℚ) ≤ 51 / 50 := by norm_num
  constructor
  · simp only [searchFuzzyScored]
    rw [if_neg (by decide : ¬ norm "a" = "")]
    simp only [List.filterMap_cons, List.filterMap_nil]
    rw [if_neg (by simp [e₂]), hfs, if_pos hle]
    simp [sortDescBy, insDescBy]
  · norm_num

theorem fuzzyScore_bounds (tl year : String) (it : ZItem) :
    0 ≤ fuzzyScore tl year it ∧ fuzzyScore tl year it ≤ 51 / 50 := by
  unfold fuzzyScore
  have h₀ := charSim_nonneg tl (asciiLower (norm it.title))
  have h₁ := charSim_le_one tl (asciiLower (norm it.title))
  split
  · constructor <;> [linarith; linarith]
  · constructor <;> [linarith; linarith]

/-- C8, amended.  A fuzzy candidate's score lies in `[0, 51/50]`: the
similarity ratio itself is in `[0,1]` but the `+0.02` year bonus can push
a kept score above `1`.  The scores the SQLite matcher carries on its
results (no bonus there) do lie in `[0,1]`. -/
theorem C8_score_bounds_amended :
    (∀ (pool : List ZItem) (title year : String) (thr s : ℚ) (it : ZItem),
      (s, it) ∈ searchFuzzyScored pool title year thr → 0 ≤ s ∧ s ≤ 51 / 50) ∧
    (∀ (db : SqlDB) (title year : String) (lib : Nat) (thr : ℚ)
        (k : String) (s : ℚ),
      (k, s) ∈ findItemsSqlite db title year lib thr → 0 ≤ s ∧ s ≤ 1) := by
  constructor
  · intro pool title year thr s it hmem
    by_cases ht : norm title = ""
    · simp only [searchFuzzyScored] at hmem
      rw [if_pos ht] at hmem
      cases hmem
    · simp only [searchFuzzyScored] at hmem
      rw [if_neg ht] at hmem
      have h := ((sortDescBy_perm _ _).mem_iff).1 hmem
      rw [List.mem_filterMap] at h
      obtain ⟨a, _, hfa⟩ := h
      by_cases h₁ : asciiLower (norm a.title) = ""
      · rw [if_pos h₁] at hfa; cases hfa
      · rw [if_neg h₁] at hfa
        by_cases h₂ : thr ≤ fuzzyScore (asciiLower (norm title)) year a
        · rw [if_pos h₂] at hfa
          have hp := Option.some_inj.1 hfa
          have hfst := congrArg Prod.fst hp
          simp only at hfst
          rw [← hfst]
          exact fuzzyScore_bounds _ year a
        · rw [if_neg h₂] at hfa; cases hfa
  · intro db title year lib thr k s hmem
    unfold findItemsSqlite at hmem
    by_cases ht : asciiLower (norm title) = ""
    · rw [if_pos ht] at hmem; cases hmem
    · rw [if_neg ht] at hmem
      cases hg : db.groups.find? (fun g => g.1 = lib) with
      | none => rw [hg] at hmem; cases hmem
      | some g =>
        rw [hg] at hmem
        have h := ((sortDescBy_perm _ _).mem_iff).1 hmem
        rw [List.mem_filterMap] at h
        obtain ⟨i, _, hfi⟩ := h
        cases hti : db.itemTitles.find? (fun p => p.1 = i.1) with
        | none => rw [hti] at hfi; cases hfi
        | some p =>
          rw [hti] at hfi
          simp only at hfi
          by_cases h₂ : thr ≤ charSim (asciiLower (norm title)) (asciiLower (norm p.2))
          · rw [if_pos h₂] at hfi
            have hp := Option.some_inj.1 hfi
            have hsnd := congrArg Prod.snd hp
            simp only at hsnd
            rw [← hsnd]
            exact ⟨charSim_nonneg _ _, charSim_le_one _ _⟩
          · rw [if_neg h₂] at hfi; cases hfi

/-- C8, witness: the amended bounds applied to the item found in the
`dbC6` store. -/
theorem C8_score_bounds_amended_witness :
    ("K1", (1 : ℚ)) ∈ findItemsSqlite dbC6 "x" "" 7 (9 / 10) ∧
      (0 ≤ (1 : ℚ) ∧ (1 : ℚ) ≤ 1) := by
  have hmem : ("K1", (1 : ℚ)) ∈ findItemsSqlite dbC6 "x" "" 7 (9 / 10) := by
    rw [findItemsSqlite_dbC6]
    exact List.mem_singleton.2 rfl
  exact ⟨hmem, C8_score_bounds_amended.2 dbC6 "x" "" 7 (9 / 10) "K1" 1 hmem⟩

/-! ### Claim C9: the year as a disambiguator -/

/-- The 2019 record of the two-year scenario (remote store). -/
def itA2019 : ZItem :=
  { key := "A", version := 1, title := "t", date := "2019",
    publicationYear := "", doi := "", tags := [] }

/-- The 2020 record of the two-year scenario (remote store). -/
def itB2020 : ZItem :=
  { key := "B", version := 1, title := "t", date := "2020",
    publicationYear := "", doi := "", tags := [] }

/-- A SQLite store with two records sharing the title `x` — one per year
in the scenario — in the library of group 7. -/
def dbTwo : SqlDB :=
  { groups := [(7, 1)], items := [(10, "A", 1), (11, "B", 1)],
    itemTitles := [(10, "x"), (11, "x")], tags := [], itemTags := [] }

theorem findItemsSqlite_dbTwo (y : String) :
    findItemsSqlite dbTwo "x" y 7 (9 / 10) = [("A", 1), ("B", 1)] := by
  have hax : asciiLower (norm "x") = "x" := by decide
  have hsim : charSim "x" "x" = 1 := charSim_self "x"
  have hle : (9 / 10 : ℚ) ≤ 1 := by norm_num
  have h11 : (1 : ℚ) ≤ 1 := le_refl 1
  simp [findItemsSqlite, dbTwo, hax, hsim, hle, h11, sortDescBy, insDescBy,
    List.find?, List.filter]

/-- C9, counterexample.  Against a store holding one same-titled record
per year, the claim says each row matches exactly the record with its own
year in both matchers.  The SQLite matcher ignores the year entirely: the
2019 row and the 2020 row both return both records. -/
theorem C9_counterexample :
    (findItemsSqlite dbTwo "x" "2019" 7 (9 / 10)).map Prod.fst = ["A", "B"] ∧
    (findItemsSqlite dbTwo "x" "2020" 7 (9 / 10)).map Prod.fst = ["A", "B"] := by
  constructor <;> simp [findItemsSqlite_dbTwo]

/-- C9, amended.  The remote matcher does use a present year as a
disambiguator: with two same-titled records dated 2019 and 2020, the 2019
row matches exactly the 2019 record and the 2020 row exactly the 2020
record.  The SQLite matcher however ignores its `year` argument
completely — its result is identical for any two year values — so the
year disambiguation holds only on the remote path. -/
theorem C9_year_amended :
    (∀ (db : SqlDB) (title y₁ y₂ : String) (lib : Nat) (thr : ℚ),
      findItemsSqlite db title y₁ lib thr = findItemsSqlite db title y₂ lib thr) ∧
    searchByTitleYear [itA2019, itB2020] "t" "2019" = [itA2019] ∧
    searchByTitleYear [itA2019, itB2020] "t" "2020" = [itB2020] :=
  ⟨fun _ _ _ _ _ _ => rfl, by decide, by decide⟩

/-! ### Claim C10: case-insensitive title matching -/

/-- A record whose title differs from the target `case TITLE` only in
letter case. -/
def itCase : ZItem :=
  { key := "C10", version := 1, title := "Case Title", date := "",
    publicationYear := "", doi := "", tags := [] }

/-- C10.  Title matching is case-insensitive throughout: the exact
title+year matcher accepts any pool record whose lower-cased normalized
title equals the lower-cased normalized target (year permitting); the
fuzzy score of such a record is exactly `1`; the similarity the SQLite
matcher computes between two titles equal up to case is exactly `1`; and
the text normalizer itself does not case-fold (it only collapses
whitespace). -/
theorem C10_case_insensitive_titles :
    (∀ (pool : List ZItem) (title year : String) (it : ZItem),
      it ∈ pool → norm title ≠ "" →
      asciiLower (norm it.title) = asciiLower (norm title) →
      yearOk year (resolvedYear it) = true →
      it ∈ searchByTitleYear pool title year) ∧
    (∀ (title : String) (it : ZItem),
      asciiLower (norm it.title) = asciiLower (norm title) →
      fuzzyScore (asciiLower (norm title)) "" it = 1) ∧
    (∀ t c : String, asciiLower (norm t) = asciiLower (norm c) →
      charSim (asciiLower (norm t)) (asciiLower (norm c)) = 1) ∧
    norm "AbC dEf" = "AbC dEf" := by
  refine ⟨?_, ?_, ?_, by decide⟩
  · intro pool title year it hit ht hteq hy
    unfold searchByTitleYear
    rw [if_neg ht, List.mem_filter]
    exact ⟨hit, by simp [hteq, hy]⟩
  · intro title it h
    unfold fuzzyScore
    rw [if_neg (by simp), h, charSim_self]
  · intro t c h
    rw [h, charSim_self]

/-- C10, witness: the record `Case Title` against the target
`case TITLE`. -/
theorem C10_case_insensitive_titles_witness :
    itCase ∈ searchByTitleYear [itCase] "case TITLE" "" ∧
    fuzzyScore (asciiLower (norm "case TITLE")) "" itCase = 1 ∧
    charSim (asciiLower (norm "Case Title")) (asciiLower (norm "case TITLE")) = 1 :=
  ⟨C10_case_insensitive_titles.1 [itCase] "case TITLE" "" itCase (by decide)
      (by decide) (by decide) (by decide),
    C10_case_insensitive_titles.2.1 "case TITLE" itCase (by decide),
    C10_case_insensitive_titles.2.2.1 "Case Title" "case TITLE" (by decide)⟩

end ZotSync
